import Mathlib

/-!
Verification development for the quantum-wavefunction Redis persistence core
(`final_proj/part_5/quantum_wavefunc_redis/quantum_wavefunc_redis/wave_function.py`).

The Python module stores complex-valued samples of a 3D field in one Redis
hash.  We give a shallow embedding:

* byte strings are modelled as `List Char` (the module only ever handles
  ASCII text encoded/decoded with UTF-8);
* IEEE-754 doubles are modelled as rationals `ℚ`; Python's fixed-point
  rendering `f"{v:.10f}"` of a value is modelled as rendering the integer
  `round (v * 10^10)` with a decimal point before the last ten digits and
  a minus sign taken from the sign of the value itself — so a negative value
  that rounds to zero still renders as `-0.00...0`, exactly as Python does
  (the remaining divergences are the tie-breaking convention at exact
  half-way points and the IEEE negative-zero input `-0.0`, which `ℚ` cannot
  represent; no statement below depends on either);
* the Redis server state is a record: the root hash (a map from field name
  to stored bytes), its optional absolute expiry instant, the auxiliary
  top-level keyspace touched by `clean_temp_data`, the reported
  `used_memory` gauge, and a simulated clock.  Key expiry is lazy: every
  command first applies expiry to the state, dropping the root hash once the
  clock has reached the armed expiry instant, which is the observable
  semantics of a Redis TTL.
-/

/-! ### Decimal characters and numerals

Helpers for `str(int)` and `f"{v:.Nf}"` / `float(...)` as used by
`gen_field`, `c2b` and `b2c` in the source. -/

/-- The decimal digit character for a digit value `0 ≤ d ≤ 9`: the character
whose code point is `48 + d` (values above nine never arise from
`Nat.digits 10`). -/
def digitChr (d : ℕ) : Char :=
  if d ≤ 9 then Char.ofNat (48 + d) else '9'

/-- The digit value of a decimal digit character (code points 48-57),
`none` on any other character. -/
def chDigit? (c : Char) : Option ℕ :=
  if 48 ≤ c.toNat ∧ c.toNat ≤ 57 then some (c.toNat - 48) else none

/-- Decimal numeral of a natural number, most significant digit first:
the characters Python's `str` produces for a non-negative `int`. -/
def charsOfNat (n : ℕ) : List Char :=
  if n = 0 then ['0'] else ((Nat.digits 10 n).map digitChr).reverse

/-- Decimal numeral of an integer, with a leading `'-'` when negative:
Python's `str` on an `int`. -/
def intChars (i : ℤ) : List Char :=
  if i < 0 then '-' :: charsOfNat i.natAbs else charsOfNat i.natAbs

/-- Reads a list of decimal digit characters into the list of their digit
values; `none` if any character is not a digit. -/
def digitsOfChars? : List Char → Option (List ℕ)
  | [] => some []
  | c :: cs =>
    match chDigit? c, digitsOfChars? cs with
    | some d, some ds => some (d :: ds)
    | _, _ => none

/-- Parses a non-empty all-digit character list as a natural number
(most significant digit first), as Python's `int`/`float` parsing does for
the digit runs inside the grammars used here. -/
def natOfChars? (cs : List Char) : Option ℕ :=
  match cs with
  | [] => none
  | _ => (digitsOfChars? cs).map fun ds => Nat.ofDigits 10 ds.reverse

/-- Parses an optional leading minus sign followed by a digit run, the
grammar of `str(int)` outputs. -/
def intOfChars? (cs : List Char) : Option ℤ :=
  if cs.head? = some '-' then (natOfChars? cs.tail).map fun n => -(n : ℤ)
  else (natOfChars? cs).map fun n => (n : ℤ)

/-- Splits a character list at the first occurrence of `c`: returns the
run before the first `c` and the remainder starting with `c` (or `([l], [])`
if `c` does not occur).  Models Python's `split` / unambiguous scanning of
the separator characters `','`, `'.'`, `'_'` in the formats below. -/
def splitAtChar (c : Char) : List Char → List Char × List Char
  | [] => ([], [])
  | a :: l =>
    if a = c then ([], a :: l)
    else
      let p := splitAtChar c l
      (a :: p.1, p.2)

/-- Pads a numeral on the left with `'0'` up to width `d`: the fractional
block of `f"{v:.df}"` always has exactly `d` digits. -/
def padZeros (d : ℕ) (l : List Char) : List Char :=
  List.replicate (d - l.length) '0' ++ l

/-- Fixed-point decimal rendering of an explicit sign flag and magnitude
`a` (the absolute value of the rounded scaled value) with `d` fractional
digits: optional `'-'`, integer digits, `'.'`, exactly `d` fraction
digits. -/
def fixedCharsSgn (d : ℕ) (neg : Bool) (a : ℕ) : List Char :=
  (if neg then ['-'] else []) ++
    charsOfNat (a / 10 ^ d) ++ '.' :: padZeros d (charsOfNat (a % 10 ^ d))

/-- The scaled integer rendered by `f"{q:.df}"`: the value rounded to the
nearest multiple of `10 ^ (-d)`, times `10 ^ d` (written as a floor so that
it evaluates; it equals `round (q * 10 ^ d)` by `round_eq`). -/
def fixedScaled (d : ℕ) (q : ℚ) : ℤ := ⌊q * (10 : ℚ) ^ d + 1 / 2⌋

/-- Python's `f"{q:.df}"`: the minus sign comes from the sign of the value
(a negative value that rounds to zero still prints `-0.00...0`), followed by
the decimal numeral of the magnitude of the value rounded to `d` fractional
digits. -/
def fixedChars (d : ℕ) (q : ℚ) : List Char :=
  fixedCharsSgn d (decide (q < 0)) (fixedScaled d q).natAbs

/-- Parses sign, integer digits, optional `'.'` and fraction digits into
`(negative?, integer value, fraction value, number of fraction digits)`.
This is Python's `float(...)` restricted to the plain fixed-decimal grammar
that the formats of this module produce. -/
def decUnsigned? (cs : List Char) : Option (ℕ × ℕ × ℕ) :=
  match splitAtChar '.' cs with
  | (ip, '.' :: fp) =>
    match natOfChars? ip, natOfChars? fp with
    | some i, some f => some (i, f, fp.length)
    | _, _ => none
  | _ => (natOfChars? cs).map fun i => (i, 0, 0)

/-- Sign-aware version of `decUnsigned?`. -/
def decParts? (cs : List Char) : Option (Bool × ℕ × ℕ × ℕ) :=
  if cs.head? = some '-' then (decUnsigned? cs.tail).map fun p => (true, p.1, p.2.1, p.2.2)
  else (decUnsigned? cs).map fun p => (false, p.1, p.2.1, p.2.2)

/-- Numeric value parsed by Python's `float` from a fixed-decimal numeral. -/
def floatOfChars? (cs : List Char) : Option ℚ :=
  (decParts? cs).map fun p =>
    (if p.1 then -1 else 1) * ((p.2.1 : ℚ) + (p.2.2.1 : ℚ) / 10 ^ p.2.2.2)

/-- Reads a fixed-decimal numeral that has exactly four fraction digits
back into its printed sign flag and scaled magnitude (the magnitude times
`10 ^ 4`); `none` otherwise.  Used only to decode the `t` block of a field
name, where the sign flag matters: `"-0.0000"` and `"0.0000"` are distinct
key blocks. -/
def fixed4OfChars? (cs : List Char) : Option (Bool × ℕ) :=
  (decParts? cs).bind fun p =>
    if p.2.2.2 = 4 then some (p.1, p.2.1 * 10 ^ 4 + p.2.2.1) else none

/-! ### The sample codec and field names

`WaveFuncHashHandler.c2b`, `WaveFuncHashHandler.b2c` and
`WaveFuncHashHandler.gen_field` (wave_function.py lines 97-108). -/

/-- Byte strings of the module, modelled as character lists (all text here
is ASCII). -/
abbrev Bytes := List Char

/-- A complex sample: real and imaginary components, doubles modelled as
rationals. -/
abbrev Cplx := ℚ × ℚ

/-- Source: `c2b(c) = f"{c.real:.10f},{c.imag:.10f}".encode()`. -/
def c2b (c : Cplx) : Bytes :=
  fixedChars 10 c.1 ++ ',' :: fixedChars 10 c.2

/-- Source: `b2c(b)`: decode, `split(",")` into exactly two halves, parse
each half with `float`.  Returns `none` where the source would raise
(wrong number of commas, or unparsable half). -/
def b2c (b : Bytes) : Option Cplx :=
  match splitAtChar ',' b with
  | (r, ',' :: i) =>
    if ',' ∈ i then none
    else
      match floatOfChars? r, floatOfChars? i with
      | some re, some im => some (re, im)
      | _, _ => none
  | _ => none

/-- The `b"temp_"` field-name namespace marker. -/
def tempPre : Bytes := "temp_".toList

/-- The `b"formal_"` field-name namespace marker. -/
def formalPre : Bytes := "formal_".toList

/-- Source: `gen_field(x, y, z, t, temp) = pre + f"x{x}_y{y}_z{z}_t{t:.4f}"`
with `pre` the temp/formal namespace marker. -/
def gen_field (x y z : ℤ) (t : ℚ) (temp : Bool) : Bytes :=
  (if temp then tempPre else formalPre) ++
    'x' :: intChars x ++ '_' :: 'y' :: intChars y ++
      '_' :: 'z' :: intChars z ++ '_' :: 't' :: fixedChars 4 t

/-- Recognizes and strips the namespace marker of a field name. -/
def stripNs : Bytes → Option (Bool × Bytes)
  | 't' :: 'e' :: 'm' :: 'p' :: '_' :: r => some (true, r)
  | 'f' :: 'o' :: 'r' :: 'm' :: 'a' :: 'l' :: '_' :: r => some (false, r)
  | _ => none

/-- Reads a decimal integer up to the next `\'_\'` separator and drops that
separator: one coordinate block of a field name. -/
def parseIntUnder (cs : Bytes) : Option (ℤ × Bytes) :=
  match splitAtChar '_' cs with
  | (xs, _ :: rest) => (intOfChars? xs).map fun i => (i, rest)
  | _ => none

/-- Decodes a field name back into its namespace flag, coordinates and
scaled (times `10 ^ 4`) time tag.  Inverse of `gen_field`, used to prove
which argument tuples can collide. -/
def decodeField (f : Bytes) : Option (Bool × ℤ × ℤ × ℤ × Bool × ℕ) :=
  (stripNs f).bind fun p =>
    match p.2 with
    | _ :: r1 =>
      (parseIntUnder r1).bind fun q1 =>
        match q1.2 with
        | _ :: r2 =>
          (parseIntUnder r2).bind fun q2 =>
            match q2.2 with
            | _ :: r3 =>
              (parseIntUnder r3).bind fun q3 =>
                match q3.2 with
                | _ :: r4 => (fixed4OfChars? r4).map fun tb => (p.1, q1.1, q2.1, q3.1, tb)
                | [] => none
            | [] => none
        | [] => none
    | [] => none

/-! ### Configuration constants (`QuantumRedisConfig`) -/

/-- Source: `MAX_MEMORY_MB = 8000`. -/
def MAX_MEMORY_MB : ℚ := 8000

/-- Source: `TEMP_DATA_TTL = 3600` (seconds). -/
def TEMP_DATA_TTL : ℚ := 3600

/-- Source: `ROOT_HASH_KEY = "quantum:wave_func:psi_map"`. -/
def ROOT_HASH_KEY : Bytes := "quantum:wave_func:psi_map".toList

/-- The auxiliary scratch namespace `b"quantum:temp:"` whose keys
`clean_temp_data` deletes by the pattern `b"quantum:temp:*"`. -/
def auxTempPre : Bytes := "quantum:temp:".toList

/-- Does `pat` occur at the start of `l`?  A glob pattern `p*` matches a
key exactly when the key starts with `p`, which is how the two patterns
`b"temp_*"` and `b"quantum:temp:*"` of `clean_temp_data` are used. -/
def listStart : List Char → List Char → Bool
  | [], _ => true
  | _ :: _, [] => false
  | p :: ps, c :: cs => p == c && listStart ps cs

/-! ### The Redis server state

State touched by the module: the root hash, its TTL, the auxiliary
keyspace, the reported memory gauge and a simulated clock. -/

/-- A hash: a map from field name to stored bytes. -/
abbrev Hash := Bytes → Option Bytes

/-- The observable Redis server state.  `hashExpire` is the absolute
instant at which the root hash disappears (`none` = no TTL armed);
`usedMemory` is the `used_memory` gauge (bytes) the server reports in
`INFO memory`, an environment input held constant by our transitions;
`now` is the simulated clock. -/
structure RedisState where
  hash : Hash
  hashExpire : Option ℚ
  aux : Hash
  usedMemory : ℕ
  now : ℚ

/-- Lazy expiry: once the clock reaches the armed expiry instant the whole
root hash is gone and its TTL cleared.  Every Redis command observes the
normalized state; this is the observable semantics of a per-key TTL. -/
def applyExpiry (s : RedisState) : RedisState :=
  match s.hashExpire with
  | some e => if e ≤ s.now then { s with hash := fun _ => none, hashExpire := none } else s
  | none => s

/-- `HGET` on the root hash. -/
def hget (f : Bytes) (s : RedisState) : Option Bytes := (applyExpiry s).hash f

/-- Advances the simulated clock by `d`. -/
def advance (d : ℚ) (s : RedisState) : RedisState := { s with now := s.now + d }

/-- One `HSET` of a single field. -/
def hset (h : Hash) (kv : Bytes × Bytes) : Hash :=
  fun f => if f = kv.1 then some kv.2 else h f

/-- `HMSET` of a field/value list, later entries overwriting earlier ones,
exactly the sequential-set semantics of the bulk command (the Python dict
passed to `hmset` already collapses duplicate keys last-wins the same
way). -/
def hmsetFn (data : List (Bytes × Bytes)) (h : Hash) : Hash :=
  data.foldl hset h

/-! ### Handler operations

`WaveFuncHashHandler.batch_save` and `WaveFuncHashHandler.get_point`
(wave_function.py lines 111-129).  The handler object only carries the
client and the root key, so the methods act on the server state
directly. -/

/-- The innermost `for z in range(nz)` loop of `batch_save`: the
field/value pairs produced for one `(x, y)` row. -/
def rowData (x y : ℕ) (nz : ℕ) (ψ : ℕ → ℕ → ℕ → Cplx) (t : ℚ) (temp : Bool) :
    List (Bytes × Bytes) :=
  (List.range nz).map fun (z : ℕ) => (gen_field (x : ℤ) (y : ℤ) (z : ℤ) t temp, c2b (ψ x y z))

/-- The `for y in range(ny)` loop of `batch_save` for one `x` plane. -/
def planeData (x : ℕ) (ny nz : ℕ) (ψ : ℕ → ℕ → ℕ → Cplx) (t : ℚ) (temp : Bool) :
    List (Bytes × Bytes) :=
  (List.range ny).flatMap fun y => rowData x y nz ψ t temp

/-- The full `data` mapping `batch_save` builds: one entry per coordinate
of the `nx × ny × nz` grid, in loop order.  The field names are pairwise
distinct (same `t` and `temp`, distinct coordinates), so the list has
exactly the entries of the Python dict. -/
def batchData (nx ny nz : ℕ) (ψ : ℕ → ℕ → ℕ → Cplx) (t : ℚ) (temp : Bool) :
    List (Bytes × Bytes) :=
  (List.range nx).flatMap fun x => planeData x ny nz ψ t temp

/-- Source: `batch_save(psi, t, temp)`: build `data` over every coordinate
of the array's bounds, `hmset` it into the root hash in one bulk write,
and, when `temp` is true, (re)arm the whole root key's TTL to
`TEMP_DATA_TTL`.  Returns the new state and the reported `count`
(`len(data)`); the wall-clock `cost` entry of the returned dict is not
modelled.  The 3D array is modelled as its shape plus an indexing
function. -/
def batch_save (nx ny nz : ℕ) (ψ : ℕ → ℕ → ℕ → Cplx) (t : ℚ) (temp : Bool)
    (s : RedisState) : RedisState × ℕ :=
  let data := batchData nx ny nz ψ t temp
  let s1 := applyExpiry s
  let s2 : RedisState := { s1 with hash := hmsetFn data s1.hash }
  ((if temp then { s2 with hashExpire := some (s2.now + TEMP_DATA_TTL) } else s2),
    data.length)

/-- Outcome of `get_point`: the returned complex value, the `KeyError`
raised on a missing (or falsy) reply, or the `ValueError` a `float` parse
failure inside `b2c` would raise on a corrupted value. -/
inductive GetResult where
  | ok (c : Cplx)
  | notFound
  | malformed
deriving DecidableEq

/-- Source: `get_point(x, y, z, t, temp)`: `hget` the generated field and
decode it; `if not val: raise KeyError` — a `None` reply and an empty
byte-string reply are both falsy, so both raise the not-found error. -/
def get_point (x y z : ℤ) (t : ℚ) (temp : Bool) (s : RedisState) : GetResult :=
  match hget (gen_field x y z t temp) s with
  | none => .notFound
  | some v =>
    if v = [] then .notFound
    else
      match b2c v with
      | none => .malformed
      | some c => .ok c

/-! ### Module-level maintenance functions

`check_memory_usage`, `clean_temp_data` and `graceful_exit`
(wave_function.py lines 24-37 and 62-78), which act through the global
`redis_client` handle and the global `EXIT_FLAG`. -/

/-- Effect of `clean_temp_data` on a connected server: `hscan_iter` the
root hash with pattern `b"temp_*"` and `hdel` every matched field, then
delete every top-level key matching `b"quantum:temp:*"`.  In a quiescent
state the scan returns exactly the fields whose name starts with
`"temp_"`. -/
def clean_temp_rs (s : RedisState) : RedisState :=
  let r := applyExpiry s
  { r with
    hash := fun f => if listStart tempPre f then none else r.hash f,
    aux := fun k => if listStart auxTempPre k then none else r.aux k }

/-- The process-wide module state: the global `redis_client` (which is
`None` until `init_redis` ran), the global `EXIT_FLAG`, whether the
client's connection pool still holds connections, and whether
`sys.exit(0)` was reached. -/
structure GlobalState where
  client : Option RedisState
  exitFlag : Bool
  poolConnected : Bool
  exited : Bool

/-- Source: `clean_temp_data()`: `if not redis_client: return`, otherwise
clean the temp fields and scratch keys. -/
def clean_temp_data (g : GlobalState) : GlobalState :=
  match g.client with
  | none => g
  | some rs => { g with client := some (clean_temp_rs rs) }

/-- The percentage `check_memory_usage` computes:
`used_memory / 1024 / 1024 / MAX_MEMORY_MB * 100` (exact rational
arithmetic in place of the source's double arithmetic). -/
def usage_pct (rs : RedisState) : ℚ :=
  ((rs.usedMemory : ℚ) / 1024 / 1024) / MAX_MEMORY_MB * 100

/-- Source: `check_memory_usage()`: `0.0` when no client was ever
initialized; otherwise compute the usage percentage, call
`clean_temp_data()` when it is at least 85, and return the percentage
computed before the cleaning. -/
def check_memory_usage (g : GlobalState) : ℚ × GlobalState :=
  match g.client with
  | none => (0, g)
  | some rs =>
    if 85 ≤ usage_pct rs then (usage_pct rs, clean_temp_data g)
    else (usage_pct rs, g)

/-- Source: `graceful_exit`: `if EXIT_FLAG: return` (re-entrant guard);
otherwise set the flag, disconnect the connection pool, run
`clean_temp_data()` (exceptions are caught and only logged) and reach
`sys.exit(0)`. -/
def graceful_exit (g : GlobalState) : GlobalState :=
  if g.exitFlag then g
  else { clean_temp_data { g with exitFlag := true, poolConnected := false } with
    exited := true }

/-- The value a stored numeral decodes back to: the component rounded to
ten fractional decimal digits.  `b2c (c2b c)` returns exactly this on each
component. -/
def fmt10 (q : ℚ) : ℚ := (fixedScaled 10 q : ℚ) / 10 ^ 10

/-! ### Concrete states and inputs used to evaluate the operations -/

/-- A freshly flushed server: nothing stored, no TTL, clock at zero. -/
def emptyRS : RedisState :=
  { hash := fun _ => none, hashExpire := none, aux := fun _ => none,
    usedMemory := 0, now := 0 }

/-- A server holding one formal sample at coordinate `(0,0,0)`, `t = 0`. -/
def formalRS : RedisState :=
  { emptyRS with
    hash := fun f => if f = gen_field 0 0 0 0 false then some (c2b (1, 0)) else none }

/-- A server where the formal field at `(0,0,0)`, `t = 0` holds an empty
byte string (written by an external client; the codec itself never
produces empty bytes). -/
def emptyValRS : RedisState :=
  { emptyRS with
    hash := fun f => if f = gen_field 0 0 0 0 false then some [] else none }

/-- A connected process state over the given server. -/
def connectedGS (rs : RedisState) : GlobalState :=
  { client := some rs, exitFlag := false, poolConnected := true, exited := false }

/-- The process state before `init_redis` ever ran: no client handle. -/
def noClientGS : GlobalState :=
  { client := none, exitFlag := false, poolConnected := false, exited := false }

/-- A server whose reported `used_memory` sits exactly at 85% of the
8000 MB budget. -/
def highMemRS : RedisState := { emptyRS with usedMemory := 6800 * 1024 * 1024 }

/-- A server whose reported `used_memory` is far below the budget. -/
def lowMemRS : RedisState := { emptyRS with usedMemory := 1024 * 1024 }

/-- A constant one-point sample field with a 10-decimal-representable
value. -/
def psiConst : ℕ → ℕ → ℕ → Cplx := fun _ _ _ => (3 / 2, -1 / 4)

/-- A constant sample field whose real component `10 ^ (-11)` is finer
than the codec's ten fractional digits. -/
def psiTiny : ℕ → ℕ → ℕ → Cplx := fun _ _ _ => (1 / 10 ^ 11, 0)

/-! ### Lemmas: decimal numerals parse back to their value -/

theorem chDigit?_digitChr {d : ℕ} (hd : d < 10) : chDigit? (digitChr d) = some d := by
  interval_cases d <;> decide

theorem digitChr_ne {d : ℕ} (hd : d < 10) :
    digitChr d ≠ '_' ∧ digitChr d ≠ ',' ∧ digitChr d ≠ '.' ∧ digitChr d ≠ '-' := by
  interval_cases d <;> exact ⟨by decide, by decide, by decide, by decide⟩

theorem mem_charsOfNat {c : Char} {n : ℕ} (h : c ∈ charsOfNat n) :
    ∃ d, d < 10 ∧ c = digitChr d := by
  unfold charsOfNat at h
  split at h
  · refine ⟨0, by norm_num, ?_⟩
    simpa using h
  · rw [List.mem_reverse, List.mem_map] at h
    obtain ⟨d, hd, hc⟩ := h
    exact ⟨d, Nat.digits_lt_base (by norm_num) hd, hc.symm⟩

theorem charsOfNat_ne_nil (n : ℕ) : charsOfNat n ≠ [] := by
  unfold charsOfNat
  split
  · simp
  · simp [Nat.digits_ne_nil_iff_ne_zero, *]

theorem natOfChars?_eq {cs : List Char} (h : cs ≠ []) :
    natOfChars? cs = (digitsOfChars? cs).map fun ds => Nat.ofDigits 10 ds.reverse := by
  cases cs with
  | nil => exact absurd rfl h
  | cons c cs => rfl

theorem digitsOfChars?_map_digitChr {L : List ℕ} (h : ∀ d ∈ L, d < 10) :
    digitsOfChars? (L.map digitChr) = some L := by
  induction L with
  | nil => rfl
  | cons d L ih =>
    have hd : d < 10 := h d (List.mem_cons_self d L)
    have hL : ∀ e ∈ L, e < 10 := fun e he => h e (List.mem_cons_of_mem d he)
    simp only [List.map_cons, digitsOfChars?, chDigit?_digitChr hd, ih hL]

theorem natOfChars?_charsOfNat (n : ℕ) : natOfChars? (charsOfNat n) = some n := by
  by_cases h0 : n = 0
  · subst h0; rfl
  · rw [natOfChars?_eq (charsOfNat_ne_nil n)]
    unfold charsOfNat
    rw [if_neg h0, ← List.map_reverse,
      digitsOfChars?_map_digitChr (fun d hd =>
        Nat.digits_lt_base (by norm_num) (List.mem_reverse.mp hd))]
    simp [Nat.ofDigits_digits]

theorem ofDigits_replicate_zero (k : ℕ) : Nat.ofDigits 10 (List.replicate k 0) = 0 := by
  induction k with
  | zero => rfl
  | succ k ih => simp [List.replicate_succ, Nat.ofDigits_cons, ih]

theorem digitsOfChars?_replicate_zero (k : ℕ) (cs : List Char) :
    digitsOfChars? (List.replicate k '0' ++ cs) =
      (digitsOfChars? cs).map fun ds => List.replicate k 0 ++ ds := by
  induction k with
  | zero =>
    simp only [List.replicate, List.nil_append]
    cases digitsOfChars? cs <;> rfl
  | succ k ih =>
    rw [List.replicate_succ, List.cons_append]
    have h0 : ∀ l, digitsOfChars? ('0' :: l) = (digitsOfChars? l).map fun ds => 0 :: ds := by
      intro l
      simp only [digitsOfChars?]
      cases digitsOfChars? l <;> rfl
    rw [h0, ih]
    cases digitsOfChars? cs <;> rfl

theorem natOfChars?_replicate_zero (k : ℕ) {cs : List Char} (h : cs ≠ []) :
    natOfChars? (List.replicate k '0' ++ cs) = natOfChars? cs := by
  obtain ⟨c, cs', rfl⟩ := List.exists_cons_of_ne_nil h
  rw [natOfChars?_eq (by simp), natOfChars?_eq (by simp),
    digitsOfChars?_replicate_zero]
  cases hd : digitsOfChars? (c :: cs') with
  | none => rfl
  | some ds =>
    simp only [Option.map_some', Option.map_map]
    congr 1
    simp [Nat.ofDigits_append, ofDigits_replicate_zero, List.reverse_append]

theorem charsOfNat_sep {n : ℕ} : ∀ c ∈ charsOfNat n,
    c ≠ '_' ∧ c ≠ ',' ∧ c ≠ '.' ∧ c ≠ '-' := by
  intro c hc
  obtain ⟨d, hd, rfl⟩ := mem_charsOfNat hc
  exact digitChr_ne hd

theorem charsOfNat_length_le {n d : ℕ} (hd : 1 ≤ d) (h : n < 10 ^ d) :
    (charsOfNat n).length ≤ d := by
  unfold charsOfNat
  split
  · simpa using hd
  · rename_i h0
    rw [List.length_reverse, List.length_map,
      Nat.digits_len 10 n (by norm_num) h0]
    have := (Nat.lt_pow_iff_log_lt (b := 10) (by norm_num) h0).mp h
    omega

theorem padZeros_length {d : ℕ} {l : List Char} (h : l.length ≤ d) :
    (padZeros d l).length = d := by
  simp only [padZeros, List.length_append, List.length_replicate]
  omega

theorem splitAtChar_append {c : Char} {l r : List Char} (h : ∀ a ∈ l, a ≠ c) :
    splitAtChar c (l ++ c :: r) = (l, c :: r) := by
  induction l with
  | nil => simp [splitAtChar]
  | cons a l ih =>
    have ha : a ≠ c := h a (List.mem_cons_self a l)
    rw [List.cons_append]
    simp only [splitAtChar, if_neg ha,
      ih (fun b hb => h b (List.mem_cons_of_mem a hb))]

theorem mem_fixedCharsSgn {c : Char} {d : ℕ} {neg : Bool} {a : ℕ}
    (h : c ∈ fixedCharsSgn d neg a) :
    c = '-' ∨ c = '.' ∨ ∃ d0, d0 < 10 ∧ c = digitChr d0 := by
  unfold fixedCharsSgn padZeros at h
  simp only [List.mem_append, List.mem_cons, List.mem_replicate] at h
  rcases h with (h | h) | h | h
  · split at h
    · left; simpa using h
    · simp at h
  · exact Or.inr (Or.inr (mem_charsOfNat h))
  · exact Or.inr (Or.inl h)
  rcases h with ⟨_, rfl⟩ | h
  · exact Or.inr (Or.inr ⟨0, by norm_num, rfl⟩)
  · exact Or.inr (Or.inr (mem_charsOfNat h))

theorem fixedCharsSgn_sep {d : ℕ} {neg : Bool} {a : ℕ} : ∀ c ∈ fixedCharsSgn d neg a,
    c ≠ ',' ∧ c ≠ '_' := by
  intro c hc
  rcases mem_fixedCharsSgn hc with rfl | rfl | ⟨d0, hd0, rfl⟩
  · exact ⟨by decide, by decide⟩
  · exact ⟨by decide, by decide⟩
  · exact ⟨(digitChr_ne hd0).2.1, (digitChr_ne hd0).1⟩

theorem fixedChars_sep {d : ℕ} {q : ℚ} : ∀ c ∈ fixedChars d q,
    c ≠ ',' ∧ c ≠ '_' := fun c hc => fixedCharsSgn_sep c hc

theorem decUnsigned?_format {I F d : ℕ} (hd : 1 ≤ d) (hF : F < 10 ^ d) :
    decUnsigned? (charsOfNat I ++ '.' :: padZeros d (charsOfNat F)) = some (I, F, d) := by
  have hsplit := splitAtChar_append (c := '.') (r := padZeros d (charsOfNat F))
    (l := charsOfNat I) (fun a ha => (charsOfNat_sep a ha).2.2.1)
  unfold decUnsigned?
  rw [hsplit]
  have hfp : natOfChars? (padZeros d (charsOfNat F)) = some F := by
    unfold padZeros
    rw [natOfChars?_replicate_zero _ (charsOfNat_ne_nil F), natOfChars?_charsOfNat]
  simp only [natOfChars?_charsOfNat, hfp,
    padZeros_length (charsOfNat_length_le hd hF)]

theorem decParts?_fixedCharsSgn {d : ℕ} (hd : 1 ≤ d) (neg : Bool) (a : ℕ) :
    decParts? (fixedCharsSgn d neg a) = some (neg, a / 10 ^ d, a % 10 ^ d, d) := by
  have hmod : a % 10 ^ d < 10 ^ d := Nat.mod_lt _ (by positivity)
  cases neg
  · have hform : fixedCharsSgn d false a =
        charsOfNat (a / 10 ^ d) ++ '.' :: padZeros d (charsOfNat (a % 10 ^ d)) := rfl
    obtain ⟨c, cs', hcc⟩ := List.exists_cons_of_ne_nil (charsOfNat_ne_nil (a / 10 ^ d))
    have hcne : c ≠ '-' := by
      have : c ∈ charsOfNat (a / 10 ^ d) := by rw [hcc]; exact List.mem_cons_self c cs'
      exact (charsOfNat_sep c this).2.2.2
    unfold decParts?
    rw [hform, hcc, List.cons_append]
    rw [if_neg (by simpa using hcne)]
    rw [← List.cons_append, ← hcc, decUnsigned?_format hd hmod]
    rfl
  · have hform : fixedCharsSgn d true a =
        '-' :: (charsOfNat (a / 10 ^ d) ++
          '.' :: padZeros d (charsOfNat (a % 10 ^ d))) := rfl
    rw [hform]
    unfold decParts?
    simp only [List.head?_cons, List.tail_cons]
    rw [if_pos trivial, decUnsigned?_format hd hmod]
    rfl

theorem div_pow_add_mod_div {a : ℕ} {d : ℕ} :
    ((a / 10 ^ d : ℕ) : ℚ) + ((a % 10 ^ d : ℕ) : ℚ) / 10 ^ d = (a : ℚ) / 10 ^ d := by
  have hNat : a / 10 ^ d * 10 ^ d + a % 10 ^ d = a := Nat.div_add_mod' a (10 ^ d)
  have hpow : ((10 : ℚ) ^ d) ≠ 0 := by positivity
  field_simp
  exact_mod_cast hNat

theorem floatOfChars?_fixedCharsSgn {d : ℕ} (hd : 1 ≤ d) (neg : Bool) (a : ℕ) :
    floatOfChars? (fixedCharsSgn d neg a) =
      some ((if neg then -1 else 1) * ((a : ℚ) / 10 ^ d)) := by
  unfold floatOfChars?
  rw [decParts?_fixedCharsSgn hd neg a]
  simp only [Option.map_some']
  congr 1
  rw [div_pow_add_mod_div]

theorem fixedScaled_nonneg {q : ℚ} (hq : 0 ≤ q) (d : ℕ) : 0 ≤ fixedScaled d q := by
  unfold fixedScaled
  rw [show (0 : ℤ) = ((0 : ℤ) : ℤ) from rfl, Int.le_floor]
  have h1 : 0 ≤ q * (10 : ℚ) ^ d := mul_nonneg hq (by positivity)
  push_cast
  linarith

theorem fixedScaled_nonpos {q : ℚ} (hq : q < 0) (d : ℕ) : fixedScaled d q ≤ 0 := by
  unfold fixedScaled
  have h1 : q * (10 : ℚ) ^ d < 0 := mul_neg_of_neg_of_pos hq (by positivity)
  have h2 : (⌊q * (10 : ℚ) ^ d + 1 / 2⌋ : ℤ) < 1 := by
    rw [Int.floor_lt]
    push_cast
    linarith
  omega

theorem fixed4OfChars?_fixedCharsSgn (neg : Bool) (a : ℕ) :
    fixed4OfChars? (fixedCharsSgn 4 neg a) = some (neg, a) := by
  unfold fixed4OfChars?
  rw [decParts?_fixedCharsSgn (by norm_num) neg a]
  show (if (4 : ℕ) = 4 then some (neg, a / 10 ^ 4 * 10 ^ 4 + a % 10 ^ 4) else none) =
    some (neg, a)
  rw [if_pos rfl, Nat.div_add_mod' a (10 ^ 4)]

theorem fixed4OfChars?_fixedChars (t : ℚ) :
    fixed4OfChars? (fixedChars 4 t) =
      some (decide (t < 0), (fixedScaled 4 t).natAbs) := by
  unfold fixedChars
  exact fixed4OfChars?_fixedCharsSgn (decide (t < 0)) (fixedScaled 4 t).natAbs

theorem floatOfChars?_fixedChars {d : ℕ} (hd : 1 ≤ d) (q : ℚ) :
    floatOfChars? (fixedChars d q) = some ((fixedScaled d q : ℚ) / 10 ^ d) := by
  unfold fixedChars
  rw [floatOfChars?_fixedCharsSgn hd]
  congr 1
  have habs : (((fixedScaled d q).natAbs : ℕ) : ℚ) = |(fixedScaled d q : ℚ)| := by
    rw [Int.cast_natAbs, Int.cast_abs]
  rw [habs]
  by_cases hq : q < 0
  · rw [if_pos (decide_eq_true hq),
      abs_of_nonpos (by exact_mod_cast fixedScaled_nonpos hq d)]
    ring
  · rw [if_neg (by simp [hq]),
      abs_of_nonneg (by exact_mod_cast fixedScaled_nonneg (not_lt.mp hq) d)]
    ring

theorem b2c_c2b (c : Cplx) : b2c (c2b c) = some (fmt10 c.1, fmt10 c.2) := by
  unfold b2c c2b
  rw [splitAtChar_append (fun a ha => (fixedChars_sep a ha).1)]
  have hni : ¬ (',' ∈ fixedChars 10 c.2) := fun hm =>
    (fixedChars_sep ',' hm).1 rfl
  simp only [if_neg hni,
    floatOfChars?_fixedChars (by norm_num : (1:ℕ) ≤ 10) c.1,
    floatOfChars?_fixedChars (by norm_num : (1:ℕ) ≤ 10) c.2]
  rfl

theorem fixedScaled_eq_round (d : ℕ) (q : ℚ) :
    fixedScaled d q = round (q * (10 : ℚ) ^ d) :=
  (round_eq (q * (10 : ℚ) ^ d)).symm

theorem abs_fmt10_sub (q : ℚ) : |fmt10 q - q| ≤ 1 / 10 ^ 9 := by
  have h : fmt10 q - q = ((fixedScaled 10 q : ℚ) - q * 10 ^ 10) / 10 ^ 10 := by
    unfold fmt10
    field_simp
    ring
  rw [h, abs_div, abs_of_pos (by positivity : (0:ℚ) < 10 ^ 10)]
  have hb : |(fixedScaled 10 q : ℚ) - q * 10 ^ 10| ≤ 1 / 2 := by
    rw [fixedScaled_eq_round, abs_sub_comm]
    exact abs_sub_round (q * 10 ^ 10)
  calc |(fixedScaled 10 q : ℚ) - q * 10 ^ 10| / 10 ^ 10
      ≤ (1 / 2) / 10 ^ 10 := by gcongr
    _ ≤ 1 / 10 ^ 9 := by norm_num

/-! ### Lemmas: field names decode back to their components -/

theorem intChars_sep {i : ℤ} : ∀ c ∈ intChars i, c ≠ '_' ∧ c ≠ ',' := by
  intro c hc
  unfold intChars at hc
  split at hc
  · rcases List.mem_cons.mp hc with rfl | hc
    · exact ⟨by decide, by decide⟩
    · exact ⟨(charsOfNat_sep c hc).1, (charsOfNat_sep c hc).2.1⟩
  · exact ⟨(charsOfNat_sep c hc).1, (charsOfNat_sep c hc).2.1⟩

theorem intOfChars?_intChars (i : ℤ) : intOfChars? (intChars i) = some i := by
  unfold intChars
  by_cases hi : i < 0
  · rw [if_pos hi]
    unfold intOfChars?
    simp [natOfChars?_charsOfNat, Int.ofNat_natAbs_of_nonpos (le_of_lt hi)]
  · rw [if_neg hi]
    unfold intOfChars?
    obtain ⟨c, cs', hcc⟩ := List.exists_cons_of_ne_nil (charsOfNat_ne_nil i.natAbs)
    have hcne : c ≠ '-' := by
      have hm : c ∈ charsOfNat i.natAbs := by
        rw [hcc]; exact List.mem_cons_self c cs'
      exact (charsOfNat_sep c hm).2.2.2
    rw [hcc]
    rw [if_neg (show ¬((c :: cs').head? = some '-') by
      simp only [List.head?_cons, Option.some.injEq]
      exact hcne), ← hcc, natOfChars?_charsOfNat]
    simp [Int.natAbs_of_nonneg (not_lt.mp hi)]

theorem parseIntUnder_append (i : ℤ) (r : Bytes) :
    parseIntUnder (intChars i ++ '_' :: r) = some (i, r) := by
  unfold parseIntUnder
  rw [splitAtChar_append (fun a ha => (intChars_sep a ha).1)]
  show (intOfChars? (intChars i)).map (fun i0 => (i0, r)) = some (i, r)
  rw [intOfChars?_intChars]
  rfl

theorem stripNs_temp (r : Bytes) : stripNs (tempPre ++ r) = some (true, r) := rfl

theorem stripNs_formal (r : Bytes) : stripNs (formalPre ++ r) = some (false, r) := rfl

theorem decodeField_gen_field (x y z : ℤ) (t : ℚ) (temp : Bool) :
    decodeField (gen_field x y z t temp) =
      some (temp, x, y, z, decide (t < 0), (fixedScaled 4 t).natAbs) := by
  have hbody : ∀ b : Bool, decodeField ((if b then tempPre else formalPre) ++
      ('x' :: intChars x ++ '_' :: 'y' :: intChars y ++ '_' :: 'z' :: intChars z ++
        '_' :: 't' :: fixedChars 4 t)) =
      some (b, x, y, z, decide (t < 0), (fixedScaled 4 t).natAbs) := by
    intro b
    have hstrip : stripNs ((if b then tempPre else formalPre) ++
        ('x' :: intChars x ++ '_' :: 'y' :: intChars y ++ '_' :: 'z' :: intChars z ++
          '_' :: 't' :: fixedChars 4 t)) =
        some (b, 'x' :: intChars x ++ '_' :: 'y' :: intChars y ++ '_' :: 'z' :: intChars z ++
          '_' :: 't' :: fixedChars 4 t) := by
      cases b
      · exact stripNs_formal _
      · exact stripNs_temp _
    unfold decodeField
    rw [hstrip, Option.some_bind]
    simp [parseIntUnder_append, fixed4OfChars?_fixedChars]
  simpa [gen_field] using hbody temp

theorem gen_field_eq_iff {x y z x' y' z' : ℤ} {t t' : ℚ} {temp temp' : Bool} :
    gen_field x y z t temp = gen_field x' y' z' t' temp' ↔
      (x = x' ∧ y = y' ∧ z = z' ∧ decide (t < 0) = decide (t' < 0) ∧
        (fixedScaled 4 t).natAbs = (fixedScaled 4 t').natAbs ∧ temp = temp') := by
  constructor
  · intro h
    have hd := decodeField_gen_field x y z t temp
    rw [h, decodeField_gen_field] at hd
    simp only [Option.some.injEq, Prod.mk.injEq] at hd
    obtain ⟨h1, h2, h3, h4, h5, h6⟩ := hd
    exact ⟨h2.symm, h3.symm, h4.symm, h5.symm, h6.symm, h1.symm⟩
  · rintro ⟨rfl, rfl, rfl, h4, h5, rfl⟩
    unfold gen_field fixedChars
    rw [h4, h5]

/-! ### Lemmas: bulk writes land every sample under its field -/

theorem hmsetFn_append (a b : List (Bytes × Bytes)) (h : Hash) :
    hmsetFn (a ++ b) h = hmsetFn b (hmsetFn a h) := by
  unfold hmsetFn
  exact List.foldl_append _ _ a b

theorem hmsetFn_not_mem {f : Bytes} {data : List (Bytes × Bytes)} (h : Hash)
    (hf : ∀ kv ∈ data, kv.1 ≠ f) : hmsetFn data h f = h f := by
  induction data generalizing h with
  | nil => rfl
  | cons kv rest ih =>
    have step : hmsetFn (kv :: rest) h = hmsetFn rest (hset h kv) := rfl
    rw [step, ih (hset h kv) (fun kv' h' => hf kv' (List.mem_cons_of_mem kv h'))]
    unfold hset
    exact if_neg (fun e => hf kv (List.mem_cons_self kv rest) e.symm)

theorem gen_field_ne_of_coord {x y z x' y' z' : ℕ} {t : ℚ} {temp : Bool}
    (hne : ¬(x = x' ∧ y = y' ∧ z = z')) :
    gen_field (x : ℤ) (y : ℤ) (z : ℤ) t temp ≠ gen_field (x' : ℤ) (y' : ℤ) (z' : ℤ) t temp := by
  intro he
  obtain ⟨h1, h2, h3, _, _, _⟩ := gen_field_eq_iff.mp he
  exact hne ⟨by exact_mod_cast h1, by exact_mod_cast h2, by exact_mod_cast h3⟩

theorem hmsetFn_rowData {x y z nz : ℕ} (hz : z < nz) (ψ : ℕ → ℕ → ℕ → Cplx)
    (t : ℚ) (temp : Bool) (h : Hash) :
    hmsetFn (rowData x y nz ψ t temp) h (gen_field (x : ℤ) (y : ℤ) (z : ℤ) t temp) =
      some (c2b (ψ x y z)) := by
  induction nz generalizing h with
  | zero => omega
  | succ n ih =>
    have hsplit : rowData x y (n + 1) ψ t temp =
        rowData x y n ψ t temp ++ [(gen_field (x : ℤ) (y : ℤ) (n : ℤ) t temp, c2b (ψ x y n))] := by
      unfold rowData
      rw [List.range_succ, List.map_append, List.map_singleton]
    rw [hsplit, hmsetFn_append]
    by_cases hzn : z = n
    · subst hzn
      show hset (hmsetFn (rowData x y z ψ t temp) h)
          (gen_field (x : ℤ) (y : ℤ) (z : ℤ) t temp, c2b (ψ x y z))
          (gen_field (x : ℤ) (y : ℤ) (z : ℤ) t temp) = some (c2b (ψ x y z))
      unfold hset
      rw [if_pos rfl]
    · have hz' : z < n := by omega
      show hset (hmsetFn (rowData x y n ψ t temp) h)
          (gen_field (x : ℤ) (y : ℤ) (n : ℤ) t temp, c2b (ψ x y n))
          (gen_field (x : ℤ) (y : ℤ) (z : ℤ) t temp) = some (c2b (ψ x y z))
      unfold hset
      rw [if_neg (gen_field_ne_of_coord (by tauto)), ih hz' h]

theorem not_mem_keys_rowData {x y z x' y' nz : ℕ} {ψ : ℕ → ℕ → ℕ → Cplx} {t : ℚ}
    {temp : Bool} (hne : ¬(x' = x ∧ y' = y)) :
    ∀ kv ∈ rowData x' y' nz ψ t temp, kv.1 ≠ gen_field (x : ℤ) (y : ℤ) (z : ℤ) t temp := by
  intro kv hkv
  unfold rowData at hkv
  rw [List.mem_map] at hkv
  obtain ⟨z', _, rfl⟩ := hkv
  exact gen_field_ne_of_coord (by tauto)

theorem hmsetFn_planeData {x y z ny nz : ℕ} (hy : y < ny) (hz : z < nz)
    (ψ : ℕ → ℕ → ℕ → Cplx) (t : ℚ) (temp : Bool) (h : Hash) :
    hmsetFn (planeData x ny nz ψ t temp) h (gen_field (x : ℤ) (y : ℤ) (z : ℤ) t temp) =
      some (c2b (ψ x y z)) := by
  induction ny generalizing h with
  | zero => omega
  | succ n ih =>
    have hsplit : planeData x (n + 1) nz ψ t temp =
        planeData x n nz ψ t temp ++ rowData x n nz ψ t temp := by
      unfold planeData
      rw [List.range_succ, List.flatMap_append, List.flatMap_singleton]
    rw [hsplit, hmsetFn_append]
    by_cases hyn : y = n
    · subst hyn
      exact hmsetFn_rowData hz ψ t temp _
    · have hy' : y < n := by omega
      rw [hmsetFn_not_mem _ (not_mem_keys_rowData (by tauto)), ih hy' h]

theorem not_mem_keys_planeData {x y z x' ny nz : ℕ} {ψ : ℕ → ℕ → ℕ → Cplx} {t : ℚ}
    {temp : Bool} (hne : x' ≠ x) :
    ∀ kv ∈ planeData x' ny nz ψ t temp, kv.1 ≠ gen_field (x : ℤ) (y : ℤ) (z : ℤ) t temp := by
  intro kv hkv
  unfold planeData at hkv
  rw [List.mem_flatMap] at hkv
  obtain ⟨y', _, hkv⟩ := hkv
  exact not_mem_keys_rowData (by tauto) kv hkv

theorem hmsetFn_batchData {x y z nx ny nz : ℕ} (hx : x < nx) (hy : y < ny) (hz : z < nz)
    (ψ : ℕ → ℕ → ℕ → Cplx) (t : ℚ) (temp : Bool) (h : Hash) :
    hmsetFn (batchData nx ny nz ψ t temp) h (gen_field (x : ℤ) (y : ℤ) (z : ℤ) t temp) =
      some (c2b (ψ x y z)) := by
  induction nx generalizing h with
  | zero => omega
  | succ n ih =>
    have hsplit : batchData (n + 1) ny nz ψ t temp =
        batchData n ny nz ψ t temp ++ planeData n ny nz ψ t temp := by
      unfold batchData
      rw [List.range_succ, List.flatMap_append, List.flatMap_singleton]
    rw [hsplit, hmsetFn_append]
    by_cases hxn : x = n
    · subst hxn
      exact hmsetFn_planeData hy hz ψ t temp _
    · have hx' : x < n := by omega
      rw [hmsetFn_not_mem _ (not_mem_keys_planeData (by omega)), ih hx' h]

/-! ### Lemmas: expiry bookkeeping of the server state -/

theorem hget_eq (f : Bytes) (s : RedisState) : hget f s = (applyExpiry s).hash f := rfl

theorem applyExpiry_now (s : RedisState) : (applyExpiry s).now = s.now := by
  unfold applyExpiry
  split
  · split <;> rfl
  · rfl

theorem applyExpiry_lt {s : RedisState} {e : ℚ}
    (h : (applyExpiry s).hashExpire = some e) : s.now < e := by
  unfold applyExpiry at h
  split at h
  next e' heq =>
    split at h
    next => simp at h
    next hle =>
      rw [heq] at h
      injection h with h
      exact h ▸ not_le.mp hle
  next heq =>
    rw [heq] at h
    simp at h

theorem applyExpiry_of_none {s0 : RedisState} (he : s0.hashExpire = none) :
    applyExpiry s0 = s0 := by
  unfold applyExpiry
  split
  next e' heq => rw [he] at heq; exact absurd heq (by simp)
  next => rfl

theorem applyExpiry_of_lt {s0 : RedisState} {e : ℚ} (he : s0.hashExpire = some e)
    (hlt : s0.now < e) : applyExpiry s0 = s0 := by
  unfold applyExpiry
  split
  next e' heq =>
    split
    next hle =>
      rw [he] at heq
      injection heq with heq
      exact absurd hlt (not_lt.mpr (heq ▸ hle))
    next => rfl
  next => rfl

theorem hget_batch_save (nx ny nz : ℕ) (ψ : ℕ → ℕ → ℕ → Cplx) (t : ℚ) (temp : Bool)
    (s : RedisState) (f : Bytes) :
    hget f ((batch_save nx ny nz ψ t temp s).1) =
      hmsetFn (batchData nx ny nz ψ t temp) (applyExpiry s).hash f := by
  unfold batch_save hget
  cases temp
  · show (applyExpiry { applyExpiry s with
        hash := hmsetFn (batchData nx ny nz ψ t false) (applyExpiry s).hash }).hash f = _
    rcases hfe : (applyExpiry s).hashExpire with _ | e
    · rw [applyExpiry_of_none (show ({ applyExpiry s with
          hash := hmsetFn (batchData nx ny nz ψ t false) (applyExpiry s).hash } :
            RedisState).hashExpire = none from hfe)]
    · rw [applyExpiry_of_lt (show ({ applyExpiry s with
          hash := hmsetFn (batchData nx ny nz ψ t false) (applyExpiry s).hash } :
            RedisState).hashExpire = some e from hfe)
        (show (applyExpiry s).now < e by
          rw [applyExpiry_now]
          exact applyExpiry_lt hfe)]
  · show (applyExpiry { applyExpiry s with
        hash := hmsetFn (batchData nx ny nz ψ t true) (applyExpiry s).hash,
        hashExpire := some ((applyExpiry s).now + TEMP_DATA_TTL) }).hash f = _
    have hrec : ({ applyExpiry s with
        hash := hmsetFn (batchData nx ny nz ψ t true) (applyExpiry s).hash,
        hashExpire := some ((applyExpiry s).now + TEMP_DATA_TTL) } :
          RedisState).hashExpire = some ((applyExpiry s).now + TEMP_DATA_TTL) := rfl
    rw [applyExpiry_of_lt hrec (show (applyExpiry s).now <
        (applyExpiry s).now + TEMP_DATA_TTL by
      unfold TEMP_DATA_TTL
      linarith)]

theorem c2b_ne_nil (v : Cplx) : c2b v ≠ [] := by
  simp [c2b]

theorem get_point_batch_save {nx ny nz x y z : ℕ} (hx : x < nx) (hy : y < ny) (hz : z < nz)
    (ψ : ℕ → ℕ → ℕ → Cplx) (t : ℚ) (temp : Bool) (s : RedisState) :
    get_point (x : ℤ) (y : ℤ) (z : ℤ) t temp ((batch_save nx ny nz ψ t temp s).1) =
      .ok (fmt10 (ψ x y z).1, fmt10 (ψ x y z).2) := by
  unfold get_point
  rw [hget_batch_save, hmsetFn_batchData hx hy hz]
  simp [c2b_ne_nil, b2c_c2b]

theorem rowData_length (x y nz : ℕ) (ψ : ℕ → ℕ → ℕ → Cplx) (t : ℚ) (temp : Bool) :
    (rowData x y nz ψ t temp).length = nz := by
  simp [rowData]

theorem planeData_length (x ny nz : ℕ) (ψ : ℕ → ℕ → ℕ → Cplx) (t : ℚ) (temp : Bool) :
    (planeData x ny nz ψ t temp).length = ny * nz := by
  induction ny with
  | zero => simp [planeData]
  | succ n ih =>
    unfold planeData at ih ⊢
    rw [List.range_succ, List.flatMap_append, List.flatMap_singleton, List.length_append,
      ih, rowData_length]
    ring

theorem batchData_length (nx ny nz : ℕ) (ψ : ℕ → ℕ → ℕ → Cplx) (t : ℚ) (temp : Bool) :
    (batchData nx ny nz ψ t temp).length = nx * ny * nz := by
  induction nx with
  | zero => simp [batchData]
  | succ n ih =>
    unfold batchData at ih ⊢
    rw [List.range_succ, List.flatMap_append, List.flatMap_singleton, List.length_append,
      ih, planeData_length]
    ring

/-! ### Lemmas: eviction, memory guard and shutdown -/

theorem hget_of_expired {s0 : RedisState} {e : ℚ} (he : s0.hashExpire = some e)
    (hle : e ≤ s0.now) (f : Bytes) : hget f s0 = none := by
  unfold hget applyExpiry
  split
  next e' heq =>
    rw [he] at heq
    injection heq with heq
    rw [if_pos (heq ▸ hle)]
  next heq =>
    rw [he] at heq
    exact absurd heq (by simp)

theorem hget_clean_temp_rs (rs : RedisState) (f : Bytes) :
    hget f (clean_temp_rs rs) =
      (if listStart tempPre f then none else (applyExpiry rs).hash f) := by
  unfold hget clean_temp_rs
  rcases hfe : (applyExpiry rs).hashExpire with _ | e
  · rw [applyExpiry_of_none (show ({ applyExpiry rs with
        hash := fun f0 => if listStart tempPre f0 then none else (applyExpiry rs).hash f0,
        aux := fun k => if listStart auxTempPre k then none else (applyExpiry rs).aux k } :
          RedisState).hashExpire = none from hfe)]
  · rw [applyExpiry_of_lt (show ({ applyExpiry rs with
        hash := fun f0 => if listStart tempPre f0 then none else (applyExpiry rs).hash f0,
        aux := fun k => if listStart auxTempPre k then none else (applyExpiry rs).aux k } :
          RedisState).hashExpire = some e from hfe)
      (show (applyExpiry rs).now < e by
        rw [applyExpiry_now]
        exact applyExpiry_lt hfe)]

theorem formal_not_temp {f : Bytes} (h : listStart formalPre f = true) :
    ¬ listStart tempPre f = true := by
  intro ht
  rw [show formalPre = 'f' :: 'o' :: 'r' :: 'm' :: 'a' :: 'l' :: '_' :: [] from rfl] at h
  rw [show tempPre = 't' :: 'e' :: 'm' :: 'p' :: '_' :: [] from rfl] at ht
  cases f with
  | nil => simp [listStart] at h
  | cons c cs =>
    have h1 : 'f' = c := by
      have := h
      unfold listStart at this
      exact beq_iff_eq.mp (Bool.and_eq_true_iff.mp this).1
    have h2 : 't' = c := by
      have := ht
      unfold listStart at this
      exact beq_iff_eq.mp (Bool.and_eq_true_iff.mp this).1
    rw [← h1] at h2
    exact absurd h2 (by decide)

theorem check_memory_usage_client (g : GlobalState) (rs : RedisState)
    (h : g.client = some rs) :
    check_memory_usage g =
      (if 85 ≤ usage_pct rs then (usage_pct rs, clean_temp_data g)
        else (usage_pct rs, g)) := by
  unfold check_memory_usage
  rw [h]

theorem clean_temp_data_exitFlag (g : GlobalState) :
    (clean_temp_data g).exitFlag = g.exitFlag := by
  unfold clean_temp_data
  split <;> rfl

/-! ### The claims -/

/-- C1: for every complex value (components modelled as exact rationals),
decoding the encoded sample succeeds and returns the components rounded to
ten fractional decimal digits, which differ from the originals by at most
`10 ^ (-9)` on each component — the round-trip is within the promised
`1e-9` absolute error unconditionally. -/
theorem C1_encode_decode_roundtrip (c : Cplx) :
    b2c (c2b c) = some (fmt10 c.1, fmt10 c.2) ∧
      |fmt10 c.1 - c.1| ≤ 1 / 10 ^ 9 ∧ |fmt10 c.2 - c.2| ≤ 1 / 10 ^ 9 :=
  ⟨b2c_c2b c, abs_fmt10_sub c.1, abs_fmt10_sub c.2⟩

/-- C3 counterexample: the argument tuples `(0,0,0,0,false)` and
`(0,0,0,1/100000,false)` differ in `t`, yet produce the identical key,
because the key renders `t` with only four fractional digits. -/
theorem C3_counterexample :
    gen_field 0 0 0 0 false = gen_field 0 0 0 (1 / 100000) false ∧
      (0 : ℚ) ≠ 1 / 100000 := by
  constructor
  · have e1 : fixedScaled 4 (0 : ℚ) = 0 := by
      unfold fixedScaled
      norm_num [Int.floor_eq_iff]
    have e2 : fixedScaled 4 ((1 : ℚ) / 100000) = 0 := by
      unfold fixedScaled
      norm_num [Int.floor_eq_iff]
    have hsgn : decide ((0 : ℚ) < 0) = decide ((1 : ℚ) / 100000 < 0) :=
      (decide_eq_false (by norm_num : ¬((0 : ℚ) < 0))).trans
        (decide_eq_false (by norm_num : ¬((1 : ℚ) / 100000 < 0))).symm
    have hmag : (fixedScaled 4 (0 : ℚ)).natAbs = (fixedScaled 4 ((1 : ℚ) / 100000)).natAbs := by
      rw [e1, e2]
    exact gen_field_eq_iff.mpr ⟨rfl, rfl, rfl, hsgn, hmag, rfl⟩
  · norm_num

/-- C3 (amended): `gen_field` is deterministic, and injective in
`x`, `y`, `z`, `temp` and in `t` up to its four-decimal rendering: two keys
are equal exactly when the coordinates and namespace flag agree and the
time tags print identically — same sign (`t < 0` iff `t' < 0`, a negative
value that rounds to zero still prints a minus sign) and same rounded
magnitude `|round (t * 10^4)| = |round (t' * 10^4)|`. -/
theorem C3_gen_field_deterministic_injective (x y z x' y' z' : ℤ) (t t' : ℚ)
    (temp temp' : Bool) :
    gen_field x y z t temp = gen_field x' y' z' t' temp' ↔
      (x = x' ∧ y = y' ∧ z = z' ∧ ((t < 0) ↔ (t' < 0)) ∧
        (round (t * 10 ^ 4)).natAbs = (round (t' * 10 ^ 4)).natAbs ∧ temp = temp') := by
  rw [← fixedScaled_eq_round 4 t, ← fixedScaled_eq_round 4 t',
    show ((t < 0) ↔ (t' < 0)) = (decide (t < 0) = decide (t' < 0)) from
      (propext decide_eq_decide).symm]
  exact gen_field_eq_iff

/-- C2 counterexample: a store holding one formal sample; a temp batch arms
the store-wide TTL; when the TTL elapses the formal key is gone too — the
expiry does affect formal-namespace keys. -/
theorem C2_counterexample :
    hget (gen_field 0 0 0 0 false) formalRS = some (c2b (1, 0)) ∧
      hget (gen_field 0 0 0 0 false)
        (advance 3600 ((batch_save 1 1 1 (fun _ _ _ => (2, 0)) 0 true formalRS).1)) =
        none := by
  constructor
  · rw [hget_eq, applyExpiry_of_none rfl]
    show (if gen_field 0 0 0 0 false = gen_field 0 0 0 0 false
        then some (c2b (1, 0)) else none) = some (c2b (1, 0))
    rw [if_pos rfl]
  · apply hget_of_expired (e := (applyExpiry formalRS).now + TEMP_DATA_TTL)
    · rfl
    · show (applyExpiry formalRS).now + TEMP_DATA_TTL ≤ (applyExpiry formalRS).now + 3600
      unfold TEMP_DATA_TTL
      linarith

/-- C2 (amended): after a batch written with temp=true, once the configured
TTL elapses every sample of that batch is absent from the store — but the
expiry removes the entire root store, so every other field, including every
formal-namespace key, is absent as well. -/
theorem C2_ttl_expires_whole_store (nx ny nz : ℕ) (ψ : ℕ → ℕ → ℕ → Cplx) (t : ℚ)
    (s : RedisState) (d : ℚ) (hd : TEMP_DATA_TTL ≤ d) (f : Bytes) :
    hget f (advance d ((batch_save nx ny nz ψ t true s).1)) = none := by
  apply hget_of_expired (e := (applyExpiry s).now + TEMP_DATA_TTL)
  · rfl
  · show (applyExpiry s).now + TEMP_DATA_TTL ≤ (applyExpiry s).now + d
    linarith

/-- C2 witness: the TTL scenario evaluated at a concrete store and batch. -/
theorem C2_ttl_witness :
    TEMP_DATA_TTL ≤ (3600 : ℚ) ∧
      hget (gen_field 0 0 0 0 true)
        (advance 3600 ((batch_save 1 1 1 psiConst 0 true emptyRS).1)) = none :=
  ⟨by norm_num [TEMP_DATA_TTL],
    C2_ttl_expires_whole_store 1 1 1 psiConst 0 emptyRS 3600
      (by norm_num [TEMP_DATA_TTL]) (gen_field 0 0 0 0 true)⟩

theorem listStart_append (p r : List Char) : listStart p (p ++ r) = true := by
  induction p with
  | nil => rfl
  | cons c cs ih => simp [listStart, ih]

/-- C4: after clean_temp_data (the spec's evict_all_temp) on a connected
store, the count of keys under the temp namespace is zero — no field whose
name starts with "temp_" remains — and every formal-namespace key with its
value that was present before the eviction is still present after it. -/
theorem C4_evict_all_temp (g : GlobalState) (rs : RedisState)
    (h : g.client = some rs) :
    ∃ rs', (clean_temp_data g).client = some rs' ∧
      (∀ f, listStart tempPre f = true → hget f rs' = none) ∧
      (∀ f v, listStart formalPre f = true → hget f rs = some v → hget f rs' = some v) := by
  refine ⟨clean_temp_rs rs, ?_, ?_, ?_⟩
  · unfold clean_temp_data
    rw [h]
  · intro f hf
    rw [hget_clean_temp_rs, if_pos hf]
  · intro f v hf hv
    rw [hget_clean_temp_rs, if_neg (by simp [formal_not_temp hf])]
    exact hv

/-- C4 witness: evicting a store that holds one formal sample and one temp
field leaves the formal sample readable and the temp namespace empty. -/
theorem C4_evict_all_temp_witness :
    (connectedGS formalRS).client = some formalRS ∧
      ∃ rs', (clean_temp_data (connectedGS formalRS)).client = some rs' ∧
        hget (gen_field 0 0 0 0 true) rs' = none ∧
        hget (gen_field 0 0 0 0 false) rs' = some (c2b (1, 0)) := by
  obtain ⟨rs', h1, h2, h3⟩ := C4_evict_all_temp (connectedGS formalRS) formalRS rfl
  refine ⟨rfl, rs', h1, h2 _ ?_, h3 _ _ ?_ ?_⟩
  · show listStart tempPre (tempPre ++ _) = true
    exact listStart_append _ _
  · show listStart formalPre (formalPre ++ _) = true
    exact listStart_append _ _
  · rw [hget_eq, applyExpiry_of_none rfl]
    show (if gen_field 0 0 0 0 false = gen_field 0 0 0 0 false
        then some (c2b (1, 0)) else none) = some (c2b (1, 0))
    rw [if_pos rfl]

/-- C5: with a connected client, check_memory_usage triggers eviction
exactly at the high-water mark: when the reported usage is at least 85% of
the configured budget it returns the usage percentage together with the
temp-evicted store, and when the usage is below 85% it returns the
percentage with the store untouched (no field deleted). -/
theorem C5_memory_guard_trigger (g : GlobalState) (rs : RedisState)
    (h : g.client = some rs) :
    (0.85 * (MAX_MEMORY_MB * 1024 * 1024) ≤ (rs.usedMemory : ℚ) →
        check_memory_usage g = (usage_pct rs, clean_temp_data g)) ∧
      ((rs.usedMemory : ℚ) < 0.85 * (MAX_MEMORY_MB * 1024 * 1024) →
        check_memory_usage g = (usage_pct rs, g)) := by
  have hpct : usage_pct rs = (rs.usedMemory : ℚ) * (100 / (1024 * 1024 * 8000)) := by
    unfold usage_pct MAX_MEMORY_MB
    ring
  have hiff : (85 ≤ usage_pct rs) ↔
      0.85 * (MAX_MEMORY_MB * 1024 * 1024) ≤ (rs.usedMemory : ℚ) := by
    rw [hpct]
    unfold MAX_MEMORY_MB
    constructor <;> intro h' <;> nlinarith
  rw [check_memory_usage_client g rs h]
  constructor
  · intro hc
    rw [if_pos (hiff.mpr hc)]
  · intro hc
    rw [if_neg (fun hge => absurd (hiff.mp hge) (not_le.mpr hc))]

/-- C5 witness: at exactly 85% of the 8000 MB budget the guard evicts, and
far below the mark it leaves the state untouched. -/
theorem C5_memory_guard_trigger_witness :
    (connectedGS highMemRS).client = some highMemRS ∧
      0.85 * (MAX_MEMORY_MB * 1024 * 1024) ≤ ((highMemRS.usedMemory : ℕ) : ℚ) ∧
      check_memory_usage (connectedGS highMemRS) =
        (usage_pct highMemRS, clean_temp_data (connectedGS highMemRS)) ∧
      check_memory_usage (connectedGS lowMemRS) = (usage_pct lowMemRS, connectedGS lowMemRS) := by
  have hhi : 0.85 * (MAX_MEMORY_MB * 1024 * 1024) ≤ ((highMemRS.usedMemory : ℕ) : ℚ) := by
    show 0.85 * (MAX_MEMORY_MB * 1024 * 1024) ≤ ((6800 * 1024 * 1024 : ℕ) : ℚ)
    unfold MAX_MEMORY_MB
    norm_num
  have hlo : ((lowMemRS.usedMemory : ℕ) : ℚ) < 0.85 * (MAX_MEMORY_MB * 1024 * 1024) := by
    show ((1024 * 1024 : ℕ) : ℚ) < 0.85 * (MAX_MEMORY_MB * 1024 * 1024)
    unfold MAX_MEMORY_MB
    norm_num
  exact ⟨rfl, hhi, (C5_memory_guard_trigger (connectedGS highMemRS) highMemRS rfl).1 hhi,
    (C5_memory_guard_trigger (connectedGS lowMemRS) lowMemRS rfl).2 hlo⟩

/-- C6 counterexample: a 1×1×1 batch whose sample has real component
`10 ^ (-11)`, finer than the codec's ten fractional digits; reading the
point back returns `(0, 0)`, not the value supplied — so the read-back is
not exact for every array of samples. -/
theorem C6_counterexample :
    get_point 0 0 0 0 false ((batch_save 1 1 1 psiTiny 0 false emptyRS).1) =
      .ok (0, 0) ∧ psiTiny 0 0 0 ≠ ((0 : ℚ), (0 : ℚ)) := by
  constructor
  · have h := @get_point_batch_save 1 1 1 0 0 0
      (by norm_num) (by norm_num) (by norm_num) psiTiny 0 false emptyRS
    have e1 : fmt10 ((1 : ℚ) / 10 ^ 11) = 0 := by
      unfold fmt10 fixedScaled
      norm_num [Int.floor_eq_iff]
    have e2 : fmt10 (0 : ℚ) = 0 := by
      unfold fmt10 fixedScaled
      norm_num [Int.floor_eq_iff]
    rw [show fmt10 (psiTiny 0 0 0).1 = 0 from e1, show fmt10 (psiTiny 0 0 0).2 = 0 from e2] at h
    exact h
  · show ((1 : ℚ) / 10 ^ 11, (0 : ℚ)) ≠ ((0 : ℚ), (0 : ℚ))
    intro h
    rw [Prod.mk.injEq] at h
    exact absurd h.1 (by norm_num)

/-- C6 (amended): batch_save writes one encoded sample for every coordinate
in the array's bounds (it reports count `nx * ny * nz`), and a subsequent
get_point at any coordinate of the batch (same `t`, same `temp`) returns the
supplied value with each component rounded to ten fractional decimal digits
— exactly the supplied value whenever the components are multiples of
`10 ^ (-10)`. -/
theorem C6_batch_roundtrip {nx ny nz x y z : ℕ} (hx : x < nx) (hy : y < ny) (hz : z < nz)
    (ψ : ℕ → ℕ → ℕ → Cplx) (t : ℚ) (temp : Bool) (s : RedisState) :
    (batch_save nx ny nz ψ t temp s).2 = nx * ny * nz ∧
      get_point (x : ℤ) (y : ℤ) (z : ℤ) t temp ((batch_save nx ny nz ψ t temp s).1) =
        .ok (fmt10 (ψ x y z).1, fmt10 (ψ x y z).2) :=
  ⟨batchData_length nx ny nz ψ t temp, get_point_batch_save hx hy hz ψ t temp s⟩

/-- C6 witness: the batch/read-back contract evaluated at a concrete
1×1×1 batch. -/
theorem C6_batch_roundtrip_witness :
    (0 : ℕ) < 1 ∧
      ((batch_save 1 1 1 psiConst 0 false emptyRS).2 = 1 ∧
        get_point 0 0 0 0 false ((batch_save 1 1 1 psiConst 0 false emptyRS).1) =
          .ok (fmt10 (psiConst 0 0 0).1, fmt10 (psiConst 0 0 0).2)) :=
  ⟨by norm_num,
    C6_batch_roundtrip (by norm_num) (by norm_num) (by norm_num) psiConst 0 false emptyRS⟩

/-- C7 counterexample: in a store whose field holds the empty byte string,
get_point reports not-found even though the computed key is present — the
source tests the reply for falsiness, and an empty reply is falsy like a
missing one, so the error is not equivalent to key absence. -/
theorem C7_counterexample :
    get_point 0 0 0 0 false emptyValRS = .notFound ∧
      hget (gen_field 0 0 0 0 false) emptyValRS = some [] := by
  have hv : hget (gen_field 0 0 0 0 false) emptyValRS = some [] := by
    rw [hget_eq, applyExpiry_of_none rfl]
    show (if gen_field 0 0 0 0 false = gen_field 0 0 0 0 false
        then some ([] : Bytes) else none) = some []
    rw [if_pos rfl]
  constructor
  · unfold get_point
    rw [hv]
    rfl
  · exact hv

/-- C7 (amended): get_point reports the not-found error exactly when the
computed key is absent from the store or its stored value is the empty byte
string; in particular a coordinate never written always yields not-found,
never a zero or default value, and no other reply produces that error. -/
theorem C7_get_point_notFound_iff (x y z : ℤ) (t : ℚ) (temp : Bool) (s : RedisState) :
    get_point x y z t temp s = .notFound ↔
      (hget (gen_field x y z t temp) s = none ∨
        hget (gen_field x y z t temp) s = some []) := by
  unfold get_point
  cases hv : hget (gen_field x y z t temp) s with
  | none => simp
  | some v =>
    by_cases he : v = []
    · subst he
      simp
    · cases hb : b2c v with
      | none => simp [he, hb]
      | some c => simp [he, hb]

/-- C8: the shutdown sequence is idempotent: invoking graceful_exit on the
state produced by a first invocation returns that state unchanged (the
EXIT_FLAG guard makes the second delivery a no-op), so both invocations end
in the same terminal state, and the function is total — nothing is raised. -/
theorem C8_graceful_exit_idempotent (g : GlobalState) :
    graceful_exit (graceful_exit g) = graceful_exit g := by
  unfold graceful_exit
  by_cases hf : g.exitFlag
  · simp [hf]
  · rw [if_neg hf]
    have hX : ({ clean_temp_data { g with exitFlag := true, poolConnected := false } with
        exited := true } : GlobalState).exitFlag = true := by
      show (clean_temp_data { g with exitFlag := true, poolConnected := false }).exitFlag = true
      rw [clean_temp_data_exitFlag]
    rw [if_pos hX]

/-- C9: a batch_save with temp=false never modifies the store's expiry
state: an armed, not-yet-fired TTL stays exactly as it was (neither cleared
nor extended) and the clock is untouched; consequently, once that TTL
fires, the formal samples the batch wrote are removed with the rest of the
store. -/
theorem C9_formal_batch_keeps_expiry (nx ny nz : ℕ) (ψ : ℕ → ℕ → ℕ → Cplx) (t : ℚ)
    (s : RedisState) (e : ℚ) (he : s.hashExpire = some e) (hlt : s.now < e) :
    ((batch_save nx ny nz ψ t false s).1).hashExpire = some e ∧
      ((batch_save nx ny nz ψ t false s).1).now = s.now ∧
      ∀ d : ℚ, e ≤ s.now + d → ∀ f : Bytes,
        hget f (advance d ((batch_save nx ny nz ψ t false s).1)) = none := by
  have hae : applyExpiry s = s := applyExpiry_of_lt he hlt
  refine ⟨?_, ?_, ?_⟩
  · show (applyExpiry s).hashExpire = some e
    rw [hae]
    exact he
  · show (applyExpiry s).now = s.now
    exact applyExpiry_now s
  · intro d hd f
    apply hget_of_expired (e := e)
    · show (applyExpiry s).hashExpire = some e
      rw [hae]
      exact he
    · show e ≤ (applyExpiry s).now + d
      rw [applyExpiry_now]
      exact hd

/-- C9 witness: a store with a TTL armed for t=100 keeps it across a formal
batch, and advancing the clock to the expiry removes the written sample. -/
theorem C9_formal_batch_keeps_expiry_witness :
    ({ emptyRS with hashExpire := some 100 } : RedisState).hashExpire = some 100 ∧
      ({ emptyRS with hashExpire := some 100 } : RedisState).now < 100 ∧
      ((batch_save 1 1 1 psiConst 0 false
          { emptyRS with hashExpire := some 100 }).1).hashExpire = some 100 ∧
      hget (gen_field 0 0 0 0 false)
        (advance 100 ((batch_save 1 1 1 psiConst 0 false
          { emptyRS with hashExpire := some 100 }).1)) = none := by
  have hlt : ({ emptyRS with hashExpire := some 100 } : RedisState).now < 100 := by
    show (0 : ℚ) < 100
    norm_num
  have h := C9_formal_batch_keeps_expiry 1 1 1 psiConst 0
    { emptyRS with hashExpire := some 100 } 100 rfl hlt
  refine ⟨rfl, hlt, h.1, h.2.2 100 ?_ (gen_field 0 0 0 0 false)⟩
  show (100 : ℚ) ≤ 0 + 100
  norm_num

/-- C10: when the store connection was never initialized (the global client
handle is absent), check_memory_usage returns 0.0 with the process state
untouched — in particular it deletes nothing — and clean_temp_data returns
without touching any key. -/
theorem C10_no_client (g : GlobalState) (h : g.client = none) :
    check_memory_usage g = (0, g) ∧ clean_temp_data g = g := by
  unfold check_memory_usage clean_temp_data
  rw [h]
  exact ⟨rfl, rfl⟩

/-- C10 witness: the uninitialized process state evaluated concretely. -/
theorem C10_no_client_witness :
    noClientGS.client = none ∧
      (check_memory_usage noClientGS = (0, noClientGS) ∧
        clean_temp_data noClientGS = noClientGS) :=
  ⟨rfl, C10_no_client noClientGS rfl⟩
